import Mathlib

/-!
Verification development for the transcript-retrieval core of the
summary repository (src/utils/youtube.js, final revision of each
function).  JavaScript strings are modelled as Lean `String`s (scanned
as `List Char`); JavaScript regex scanning is embedded as explicit
left-to-right scans; network collaborators (axios, the WHATWG URL
parser, the title lookup) are parameters of the embedded functions, so
theorems quantify over every behaviour of those collaborators.
-/

namespace YT

/-- The character class of the JavaScript regex fragment
occurring in src/utils/youtube.js as the capture of every video-id
pattern: any character other than the four delimiters
question mark, ampersand, slash, hash. -/
def capChar (c : Char) : Bool :=
  !(c == '?' || c == '&' || c == '/' || c == '#')

/-- Characters matched by the JavaScript regex dot (no `s` flag): every
character except the four line terminators LF, CR, LS, PS. -/
def dotChar (c : Char) : Bool :=
  !(c == '\n' || c == '\r' || c == '\u2028' || c == '\u2029')

/-- The JavaScript WhiteSpace / LineTerminator set used by
`String.prototype.trim`. -/
def isJsWhitespace (c : Char) : Bool :=
  c == ' ' || c == '\t' || c == '\n' || c == '\r' ||
  c == '\x0b' || c == '\x0c' || c == '\u00A0' || c == '\u1680' ||
  ('\u2000' ≤ c && c ≤ '\u200A') || c == '\u2028' || c == '\u2029' ||
  c == '\u202F' || c == '\u205F' || c == '\u3000' || c == '\uFEFF'

/-- JS `str.trim()` on the character list. -/
def jsTrimL (s : List Char) : List Char :=
  ((s.dropWhile isJsWhitespace).reverse.dropWhile isJsWhitespace).reverse

/-- JS `str.trim()`. -/
def jsTrim (s : String) : String :=
  ⟨jsTrimL s.toList⟩

/-- Whether `pat` occurs as a contiguous substring of `s`
(JS `String.prototype.includes`, and the success condition of a literal
regex search). -/
def containsSub (pat : List Char) : List Char → Bool
  | [] => pat.isPrefixOf ([] : List Char)
  | c :: rest => pat.isPrefixOf (c :: rest) || containsSub pat rest

/-- JS `a.includes(b)` on strings. -/
def includesSub (pat s : String) : Bool :=
  containsSub pat.toList s.toList

/-- Split `s` at the first occurrence of `pat`: returns the part before
the occurrence and the part after it, or `none` when `pat` does not
occur.  This is the shape of a JS regex search for a literal followed by
a bounded capture. -/
def splitFirst (pat : List Char) : List Char → Option (List Char × List Char)
  | [] => if pat.isEmpty then some ([], []) else none
  | c :: rest =>
    if pat.isPrefixOf (c :: rest) then
      some ([], (c :: rest).drop pat.length)
    else
      match splitFirst pat rest with
      | some (pre, post) => some (c :: pre, post)
      | none => none

/-! ## Identifier Extractor (src/utils/youtube.js, extractVideoId,
final revision, lines 354-388) -/

/-- First alternative of pattern 1 of `extractVideoId`. -/
def p1watch : List Char := "youtube.com/watch?v=".toList

/-- Second alternative of pattern 1 of `extractVideoId`. -/
def p1short : List Char := "youtu.be/".toList

/-- Third alternative of pattern 1 of `extractVideoId`. -/
def p1embed : List Char := "youtube.com/embed/".toList

/-- Literal head of pattern 2 of `extractVideoId`. -/
def p2watch : List Char := "youtube.com/watch".toList

/-- Literal head of pattern 3 of `extractVideoId`. -/
def p3shorts : List Char := "youtube.com/shorts/".toList

/-- Attempt of one regex alternative at the current position: the
literal `pre` followed by a non-empty greedy capture of `capChar`
characters. -/
def tryLitCapture (pre : List Char) (s : List Char) : Option (List Char) :=
  if pre.isPrefixOf s then
    let cap := (s.drop pre.length).takeWhile capChar
    if cap.isEmpty then none else some cap
  else none

/-- Left-to-right scan of the first `extractVideoId` regex
(the three-way alternation of watch / short-link / embed heads, each
followed by a non-empty delimiter-free capture). -/
def scanPattern1 : List Char → Option (List Char)
  | [] => none
  | c :: rest =>
    match tryLitCapture p1watch (c :: rest) with
    | some cap => some cap
    | none =>
      match tryLitCapture p1short (c :: rest) with
      | some cap => some cap
      | none =>
        match tryLitCapture p1embed (c :: rest) with
        | some cap => some cap
        | none => scanPattern1 rest

/-- The lazy middle of pattern 2: starting right after the literal
head, skip dot-matchable characters one at a time (shortest first) until
a question mark or ampersand followed by the two characters v, equals
and a non-empty capture is found. -/
def scanLazyV : List Char → Option (List Char)
  | [] => none
  | c :: rest =>
    match
      (if (c == '?' || c == '&') && ['v', '='].isPrefixOf rest then
        let cap := (rest.drop 2).takeWhile capChar
        if cap.isEmpty then none else some cap
      else none) with
    | some cap => some cap
    | none => if dotChar c then scanLazyV rest else none

/-- Left-to-right scan of the second `extractVideoId` regex
(watch head, lazy dot-run, then a v= query parameter capture). -/
def scanPattern2 : List Char → Option (List Char)
  | [] => none
  | c :: rest =>
    match
      (if p2watch.isPrefixOf (c :: rest) then
        scanLazyV ((c :: rest).drop p2watch.length)
      else none) with
    | some cap => some cap
    | none => scanPattern2 rest

/-- Left-to-right scan of the third `extractVideoId` regex
(shorts head followed by a non-empty delimiter-free capture). -/
def scanPattern3 : List Char → Option (List Char)
  | [] => none
  | c :: rest =>
    match tryLitCapture p3shorts (c :: rest) with
    | some cap => some cap
    | none => scanPattern3 rest

/-- The part of a parsed WHATWG URL object that `extractVideoId` reads:
its hostname and the value `searchParams.get` returns for the key v
(`none` models the JS null of an absent parameter). -/
structure UrlObj where
  hostname : String
  vParam : Option String
deriving DecidableEq

/-- Embedding of `extractVideoId` (src/utils/youtube.js, final revision).
The WHATWG URL parser is a parameter; `parseUrl u = none` models
`new URL(u)` throwing (the code catches that and falls through).  The
input is an `Option String`: `none` models a null/undefined argument,
and the empty string is falsy in the `if (!url)` guard just like null. -/
def extractVideoId (parseUrl : String → Option UrlObj) (url : Option String) :
    Option String :=
  match url with
  | none => none
  | some u =>
    if u = "" then none
    else
      match scanPattern1 u.toList with
      | some cap => some ⟨cap⟩
      | none =>
        match scanPattern2 u.toList with
        | some cap => some ⟨cap⟩
        | none =>
          match scanPattern3 u.toList with
          | some cap => some ⟨cap⟩
          | none =>
            match parseUrl u with
            | none => none
            | some obj =>
              if includesSub "youtube.com" obj.hostname then
                match obj.vParam with
                | some v => if v ≠ "" then some v else none
                | none => none
              else none

/-! ## Entity Decoder (src/utils/youtube.js, decodeHtmlEntities,
final revision, lines 444-467) -/

/-- One pass of JS `str.replace(new RegExp(literal, g), repl)`: replace
every non-overlapping occurrence of `pat` left to right, never
rescanning replaced output.  The `Nat` argument is recursion fuel; any
fuel at least the length of the list gives the replacement semantics,
and with insufficient fuel the remaining suffix is returned unchanged. -/
def replaceAllAux (pat repl : List Char) : Nat → List Char → List Char
  | _, [] => []
  | 0, s => s
  | fuel + 1, c :: rest =>
    if !pat.isEmpty && pat.isPrefixOf (c :: rest) then
      repl ++ replaceAllAux pat repl fuel ((c :: rest).drop pat.length)
    else
      c :: replaceAllAux pat repl fuel rest

/-- Global literal replacement with adequate fuel. -/
def replaceAllL (pat repl s : List Char) : List Char :=
  replaceAllAux pat repl s.length s

/-- The named-entity table of `decodeHtmlEntities`, in the object
insertion order the JS `Object.entries` loop follows. -/
def namedEntities : List (String × String) :=
  [("&amp;", "&"), ("&lt;", "<"), ("&gt;", ">"),
   ("&quot;", "\""), ("&#39;", "\x27"), ("&apos;", "\x27")]

/-- Decimal value of an ASCII digit run. -/
def digitsToNat (ds : List Char) : Nat :=
  ds.foldl (fun acc c => acc * 10 + (c.toNat - '0'.toNat)) 0

/-- JS `String.fromCharCode`: the argument is converted to an unsigned
16-bit value.  The model covers the scalar-value range (the JS float
rounding above 2^53 and UTF-16 lone surrogates are outside the inputs
any claim touches). -/
def fromCharCode (n : Nat) : Char :=
  Char.ofNat (n % 65536)

/-- One scan of JS `str.replace(/&#(\d+);/g, ...)`: left to right,
replacing each well-formed decimal character reference and leaving
everything else (including malformed references) as literal text.
Fueled like `replaceAllAux`. -/
def decodeNumAux : Nat → List Char → List Char
  | _, [] => []
  | 0, s => s
  | fuel + 1, '&' :: '#' :: rest =>
    let ds := rest.takeWhile Char.isDigit
    if !ds.isEmpty && (rest.drop ds.length).head? == some ';' then
      fromCharCode (digitsToNat ds) :: decodeNumAux fuel (rest.drop (ds.length + 1))
    else
      '&' :: decodeNumAux fuel ('#' :: rest)
  | fuel + 1, c :: rest => c :: decodeNumAux fuel rest

/-- Embedding of `decodeHtmlEntities` (final revision) on character
lists: the six named entities are replaced sequentially in table order,
then decimal numeric references are decoded. -/
def decodeHtmlEntitiesL (text : List Char) : List Char :=
  let named := namedEntities.foldl
    (fun acc pr => replaceAllL pr.1.toList pr.2.toList acc) text
  decodeNumAux named.length named

/-- Embedding of `decodeHtmlEntities` (final revision), including the
falsy-input guard `if (!text) return ''`. -/
def decodeHtmlEntities (text : String) : String :=
  if text = "" then "" else ⟨decodeHtmlEntitiesL text.toList⟩

/-- Whether a well-formed decimal character reference starts at the head
of the list. -/
def numRefAt : List Char → Bool
  | '&' :: '#' :: rest =>
    let ds := rest.takeWhile Char.isDigit
    !ds.isEmpty && (rest.drop ds.length).head? == some ';'
  | _ => false

/-- Whether a well-formed decimal character reference occurs anywhere. -/
def hasNumericRef : List Char → Bool
  | [] => false
  | c :: rest => numRefAt (c :: rest) || hasNumericRef rest

/-- Whether any decodable entity — a named entity of the table or a
well-formed decimal reference — occurs in the list.  A string with only
malformed references (for example an ampersand-hash pair without digits
or without the closing semicolon) has none. -/
def hasAnyEntity (s : List Char) : Bool :=
  namedEntities.any (fun pr => containsSub pr.1.toList s) || hasNumericRef s

/-! ## Transcript Body Parser, cue-timed format
(src/utils/youtube.js, getTranscriptFromTimedTextAPI, lines 542-559) -/

/-- One segment of a cue-timed caption event; `utf8` may be absent. -/
structure Json3Seg where
  utf8 : Option String
deriving DecidableEq

/-- One cue-timed caption event; `segs` may be absent. -/
structure Json3Event where
  segs : Option (List Json3Seg)
deriving DecidableEq

/-- JS `seg.utf8 || a-blank-string`. -/
def segText (s : Json3Seg) : String :=
  s.utf8.getD ""

/-- The filter `event.segs && event.segs.length > 0` of the cue-timed
parser. -/
def eventKeep (e : Json3Event) : Bool :=
  match e.segs with
  | some l => decide (0 < l.length)
  | none => false

/-- The per-event body: segment texts joined by single spaces. -/
def eventText (e : Json3Event) : String :=
  String.intercalate " " ((e.segs.getD []).map segText)

/-- Embedding of the cue-timed transcript construction inside
`getTranscriptFromTimedTextAPI`: filter events with segments, join the segment
texts of each event with spaces, join events with spaces. -/
def parseJson3Events (events : List Json3Event) : String :=
  String.intercalate " " ((events.filter eventKeep).map eventText)

/-- Modelled from the spec wording of the cue-timed parser, for the
refinement comparison: walk the events in payload order, skip events
with no segments, emit for each surviving event its segment texts joined by
single spaces. -/
def cueSpecTexts : List Json3Event → List String
  | [] => []
  | e :: rest =>
    match e.segs with
    | none => cueSpecTexts rest
    | some [] => cueSpecTexts rest
    | some segs => String.intercalate " " (segs.map segText) :: cueSpecTexts rest

/-- Spec-worded cue-timed output: surviving events joined by single
spaces. -/
def cueSpecJoin (events : List Json3Event) : String :=
  String.intercalate " " (cueSpecTexts events)

/-! ## Transcript Body Parser, markup-tag format
(src/utils/youtube.js, parseTranscriptXml, lines 866-883) -/

/-- One attempt of the markup-tag regex at the current position: the
literal text-tag head, a greedy attribute run of non-gt characters
closed by a gt sign, then the lazy inner content (first closing tag
occurrence, every content character dot-matchable). -/
def tryTextMatch (s : List Char) : Option (List Char × List Char) :=
  if "<text".toList.isPrefixOf s then
    let t := s.drop 5
    let attrs := t.takeWhile (fun ch => !(ch == '>'))
    match t.drop attrs.length with
    | '>' :: body =>
      match splitFirst "</text>".toList body with
      | some (content, after) =>
        if content.all dotChar then some (content, after) else none
      | none => none
    | _ => none
  else none

/-- The global exec loop of the markup-tag regex: on a match, continue
after it; on failure, advance one character.  Fueled; fuel equal to the
list length is adequate since every step consumes at least one
character. -/
def scanTextTags : Nat → List Char → List (List Char)
  | _, [] => []
  | 0, _ => []
  | fuel + 1, c :: rest =>
    match tryTextMatch (c :: rest) with
    | some (content, after) => content :: scanTextTags fuel after
    | none => scanTextTags fuel rest

/-- Embedding of `parseTranscriptXml` (final revision): extract the
inner content of every text element, decode entities, keep fragments
that are non-empty after trimming, join with single spaces. -/
def parseTranscriptXml (xml : String) : String :=
  let ms := scanTextTags xml.toList.length xml.toList
  let texts := (ms.map decodeHtmlEntitiesL).filter (fun t => !(jsTrimL t).isEmpty)
  String.intercalate " " (texts.map (fun t => (⟨t⟩ : String)))

/-- A document made of exactly the given text elements, in order. -/
def textElements : List String → String
  | [] => ""
  | c :: cs => "<text>" ++ c ++ "</text>" ++ textElements cs

/-- Modelled from the spec wording of the markup-tag parser, for the
refinement comparison: decode the content of each element with the Entity
Decoder, discard results empty after trimming, join the survivors with
single spaces in document order. -/
def markupSpecParse (cs : List String) : String :=
  String.intercalate " "
    ((cs.map decodeHtmlEntities).filter (fun t => jsTrim t != ""))

/-! ## Track Catalog Parser (src/utils/youtube.js, parseTracksXml,
lines 822-861) -/

/-- A parsed caption track of the catalog listing. -/
structure TrackT where
  lang_code : String
  name : String
  kind : String
deriving DecidableEq

/-- JS `attrs.match(of one attribute literal followed by a quoted
capture)`: the first occurrence of the literal, capturing up to the
next double quote, requiring that closing quote. -/
def matchAttrCapture (lit : List Char) (attrs : List Char) : Option (List Char) :=
  match splitFirst lit attrs with
  | none => none
  | some (_, r) =>
    match splitFirst ['"'] r with
    | some (cap, _) => some cap
    | none => none

/-- The global scan for track-opening tags: the literal track-tag head,
a greedy run of non-gt characters, a closing gt sign; the attribute run
is collected.  Failure at a position advances one character. -/
def scanTrackTags : Nat → List Char → List (List Char)
  | _, [] => []
  | 0, _ => []
  | fuel + 1, c :: rest =>
    if "<track".toList.isPrefixOf (c :: rest) then
      let t := (c :: rest).drop 6
      let attrs := t.takeWhile (fun ch => !(ch == '>'))
      match t.drop attrs.length with
      | '>' :: after => attrs :: scanTrackTags fuel after
      | _ => scanTrackTags fuel rest
    else scanTrackTags fuel rest

/-- Build one track from a primary-format attribute run, mirroring the
truthiness guard `if (langCode)`: an absent or empty language-code
capture discards the entry. -/
def trackOfAttrs (attrs : List Char) : Option TrackT :=
  match matchAttrCapture "lang_code=\"".toList attrs with
  | some l =>
    if l.isEmpty then none
    else
      some ⟨⟨l⟩, ⟨(matchAttrCapture "name=\"".toList attrs).getD []⟩,
            ⟨(matchAttrCapture "kind=\"".toList attrs).getD []⟩⟩
  | none => none

/-- The name-attribute tail of the alternative-format regex at one
backtracking split point. -/
def tryNameCapture (t : List Char) : Option (List Char × List Char) :=
  if "name=\"".toList.isPrefixOf t then
    match splitFirst ['"'] (t.drop 6) with
    | some (cap, rest2) => some (cap, rest2)
    | none => none
  else none

/-- Greedy backtracking of the non-gt run of the alternative-format
regex: try the longest split point first, then shorter ones down to
zero. -/
def greedyNameSearch : Nat → List Char → Option (List Char × List Char)
  | 0, r => tryNameCapture r
  | k + 1, r =>
    match tryNameCapture (r.drop (k + 1)) with
    | some v => some v
    | none => greedyNameSearch k r

/-- One attempt of the alternative-format regex at the current
position: the lang-attribute literal with its quoted capture, a greedy
non-gt run, then the name attribute with its quoted capture. -/
def tryAltMatch (s : List Char) : Option ((List Char × List Char) × List Char) :=
  if "lang=\"".toList.isPrefixOf s then
    match splitFirst ['"'] (s.drop 6) with
    | some (cap1, r1) =>
      match greedyNameSearch (r1.takeWhile (fun ch => !(ch == '>'))).length r1 with
      | some (cap2, rest2) => some ((cap1, cap2), rest2)
      | none => none
    | none => none
  else none

/-- The global exec loop of the alternative-format regex. -/
def scanAltTracks : Nat → List Char → List (List Char × List Char)
  | _, [] => []
  | 0, _ => []
  | fuel + 1, c :: rest =>
    match tryAltMatch (c :: rest) with
    | some (pr, rest2) => pr :: scanAltTracks fuel rest2
    | none => scanAltTracks fuel rest

/-- Embedding of `parseTracksXml` (lines 822-861): primary
track-tag format first; when it yields no tracks, the alternative
lang/name attribute format, with the same language-code truthiness
guard. -/
def parseTracksXml (xml : String) : List TrackT :=
  let primary := (scanTrackTags xml.toList.length xml.toList).filterMap trackOfAttrs
  if primary.length = 0 then
    (scanAltTracks xml.toList.length xml.toList).filterMap
      (fun pr => if pr.1.isEmpty then none else some ⟨⟨pr.1⟩, ⟨pr.2⟩, ""⟩)
  else primary

/-! ## Track selection (src/utils/youtube.js,
getTranscriptFromTimedTextAPI lines 500-533 and
getTranscriptFromWatchPage lines 642-649) -/

/-- JS `String.prototype.toLowerCase` restricted to the ASCII range the
claims exercise. -/
def jsToLower (s : String) : String :=
  ⟨s.toList.map Char.toLower⟩

/-- The language predicate of the timedtext track search: exact code,
lowercased code, or a hyphenated extension of the requested code. -/
def matchesLang (l : String) (t : TrackT) : Bool :=
  t.lang_code == l || t.lang_code == jsToLower l ||
  (l ++ "-").toList.isPrefixOf t.lang_code.toList

/-- The auto-track name predicate used only for the auto language
candidate. -/
def isAutoName (t : TrackT) : Bool :=
  includesSub "auto-generated" t.name || includesSub "automatic" t.name

/-- The English-family code test appearing in both selection sites. -/
def isEnglishFamily (c : String) : Bool :=
  c == "en" || c == "en-US" || c == "en-GB"

/-- Embedding of the track selection step of
`getTranscriptFromTimedTextAPI` (lines 500-533): first language-code
search in catalog order, the auto-name search only for the literal auto
candidate, then the English-family search, then the first track.  The
caller guarantees a non-empty catalog, so the final `head?` mirrors
`tracks[0]`. -/
def selectTimedTextTrack (lang : Option String) (tracks : List TrackT) : Option TrackT :=
  let sel1 : Option TrackT :=
    match lang with
    | some l =>
      match tracks.find? (fun t => matchesLang l t) with
      | some t => some t
      | none => if l == "auto" then tracks.find? isAutoName else none
    | none => none
  match sel1 with
  | some t => some t
  | none =>
    match tracks.find? (fun t => isEnglishFamily t.lang_code) with
    | some t => some t
    | none => tracks.head?

/-- A caption track of the watch-page embedded data. -/
structure WPTrack where
  languageCode : String
  kind : String
deriving DecidableEq

/-- Embedding of the track selection of `getTranscriptFromWatchPage`
(lines 642-649): the first English-family track, else the first
track. -/
def selectWatchPageTrack (tracks : List WPTrack) : Option WPTrack :=
  match tracks.find? (fun t => isEnglishFamily t.languageCode) with
  | some t => some t
  | none => tracks.head?

/-- The auto-generated classification of the data model (spec section
3): the automatic-speech-recognition kind marker or the auto-generated
name marker. -/
def isAutoGeneratedTrack (t : TrackT) : Bool :=
  t.kind == "asr" || includesSub "auto-generated" t.name

/-- An auto-generated English track as the catalog parser would retain
it. -/
def autoTrackEn : TrackT :=
  ⟨"en", "English (auto-generated)", "asr"⟩

/-- A manual English track. -/
def manualTrackEn : TrackT :=
  ⟨"en", "English", ""⟩

/-- An auto-generated English watch-page track. -/
def wpAutoEn : WPTrack :=
  ⟨"en", "asr"⟩

/-- A manual English watch-page track. -/
def wpManualEn : WPTrack :=
  ⟨"en", ""⟩

/-! ## Fallback Orchestrator (src/utils/youtube.js, getVideoTranscript,
final revision, lines 888-955) -/

/-- The uniform result shape a channel adapter resolves with. -/
structure MethodResult where
  success : Bool
  transcript : Option String
  language : Option String
deriving DecidableEq

/-- The orchestrator validation
`result.success && result.transcript && result.transcript.trim().length >= 20`:
the transcript field must be present and truthy (non-empty) and its
trimmed length at least twenty. -/
def validResult (r : MethodResult) : Bool :=
  r.success &&
    (match r.transcript with
     | some t => t != "" && decide (20 ≤ (jsTrim t).length)
     | none => false)

/-- One adapter invocation outcome: a thrown error or a resolved
result. -/
def validRun (run : Except String MethodResult) : Bool :=
  match run with
  | .ok r => validResult r
  | .error _ => false

/-- The orchestrator loop over the methods array, instrumented with the
list of invoked adapter indices: a thrown or invalid attempt advances;
the first valid result stops the loop. -/
def runMethodsAux (idx : Nat) :
    List (String × Except String MethodResult) →
    List Nat × Option (String × MethodResult)
  | [] => ([], none)
  | (nm, run) :: rest =>
    match run with
    | .error _ =>
      let p := runMethodsAux (idx + 1) rest
      (idx :: p.1, p.2)
    | .ok r =>
      if validResult r then ([idx], some (nm, r))
      else
        let p := runMethodsAux (idx + 1) rest
        (idx :: p.1, p.2)

/-- The fixed methods array of `getVideoTranscript`, with the
behaviour of each adapter for this call supplied by the network
collaborator. -/
def methodsList (tt wp it : Except String MethodResult) :
    List (String × Except String MethodResult) :=
  [("TimedText API", tt), ("Watch Page", wp), ("Innertube API", it)]

/-- The object `getVideoTranscript` resolves with; absent JS fields are
`none`. -/
structure Outcome where
  video_id : Option String
  title : Option String
  transcript : Option String
  language : Option String
  url : Option String
  method : Option String
  success : Bool
  error : Option String
deriving DecidableEq

/-- Embedding of `getVideoTranscript` (final revision, lines 888-955).
The URL parser, the title lookup result, and the three channel-adapter
behaviours are parameters modelling the network collaborator; the
adapters are tried in the fixed order of the methods array, and the
first result passing `validResult` is returned. -/
def getVideoTranscript (parseUrl : String → Option UrlObj) (title : String)
    (tt wp it : Except String MethodResult) (url : Option String) : Outcome :=
  match extractVideoId parseUrl url with
  | none =>
    ⟨none, none, none, none, url, none, false,
      some "Could not extract video ID from URL"⟩
  | some vid =>
    match (runMethodsAux 0 (methodsList tt wp it)).2 with
    | some (nm, r) =>
      ⟨some vid, some title, r.transcript, r.language, url, some nm, true, none⟩
    | none =>
      ⟨some vid, some title, none, none, url, none, false,
        some "Could not retrieve transcript after trying multiple methods. The video may not have captions available."⟩

/-! ## Helper lemmas -/

theorem mk_ne_empty_of_ne_nil {l : List Char} (h : l ≠ []) : (⟨l⟩ : String) ≠ "" := by
  intro he
  exact h (congrArg String.data he)

theorem cueSpecTexts_eq (events : List Json3Event) :
    (events.filter eventKeep).map eventText = cueSpecTexts events := by
  induction events with
  | nil => rfl
  | cons e rest ih =>
    obtain ⟨osegs⟩ := e
    cases osegs with
    | none => simpa [List.filter_cons, eventKeep, cueSpecTexts] using ih
    | some segs =>
      cases segs with
      | nil => simpa [List.filter_cons, eventKeep, cueSpecTexts] using ih
      | cons s ss =>
        simpa [List.filter_cons, eventKeep, cueSpecTexts, eventText] using ih

/-! ## Claim theorems -/

/-- Claim C7: the cue-timed body parser joins the segment texts of each event
with single spaces, skips events with no segments, and joins the
surviving events with single spaces in payload order; the given
three-event list parses to the expected string. -/
theorem c7_cue_timed_body :
    (∀ events : List Json3Event, parseJson3Events events = cueSpecJoin events) ∧
    parseJson3Events
      [⟨some [⟨some "Hello"⟩, ⟨some "world"⟩]⟩, ⟨some []⟩, ⟨some [⟨some "!"⟩]⟩]
      = "Hello world !" := by
  constructor
  · intro events
    unfold parseJson3Events cueSpecJoin
    rw [cueSpecTexts_eq]
  · decide

/-- Claim C1 counterexample: a catalog whose auto-generated English
track precedes its manual English track, both exactly matching the
preferred language, makes both selection sites pick the auto-generated
track, so the claim that the manual track is chosen regardless of
catalog order is false. -/
theorem c1_counterexample :
    autoTrackEn.lang_code = "en" ∧ manualTrackEn.lang_code = "en" ∧
    isAutoGeneratedTrack autoTrackEn = true ∧
    isAutoGeneratedTrack manualTrackEn = false ∧
    selectTimedTextTrack (some "en") [autoTrackEn, manualTrackEn] = some autoTrackEn ∧
    autoTrackEn ≠ manualTrackEn ∧
    wpAutoEn.kind = "asr" ∧ wpManualEn.kind = "" ∧
    selectWatchPageTrack [wpAutoEn, wpManualEn] = some wpAutoEn ∧
    wpAutoEn ≠ wpManualEn := by
  decide

/-- Claim C1 as amended: the timedtext selection step returns the first
track in catalog order whose language code matches the preferred
language, regardless of whether it is manual or auto-generated; the
manual track is therefore chosen exactly when it precedes the
auto-generated one. -/
theorem c1_amended_first_language_match (l : String) (tracks : List TrackT)
    (t : TrackT) (h : tracks.find? (fun tr => matchesLang l tr) = some t) :
    selectTimedTextTrack (some l) tracks = some t := by
  unfold selectTimedTextTrack
  simp [h]

/-- Witness for the amended claim C1 at a concrete catalog. -/
theorem c1_amended_witness :
    selectTimedTextTrack (some "en") [manualTrackEn, autoTrackEn] = some manualTrackEn :=
  c1_amended_first_language_match "en" [manualTrackEn, autoTrackEn] manualTrackEn
    (by decide)

/-- Claim C9: the Track Catalog Parser is a total function, every
retained entry has a non-empty language code (the truthiness guard
discards entries whose language code is absent or empty), and the empty
input yields the empty track sequence. -/
theorem c9_track_catalog_invariants (xml : String) :
    ((parseTracksXml xml).all (fun t => t.lang_code != "")) = true ∧
    parseTracksXml "" = [] := by
  refine ⟨?_, by decide⟩
  rw [List.all_eq_true]
  intro t ht
  simp only [parseTracksXml] at ht
  split at ht
  · rw [List.mem_filterMap] at ht
    obtain ⟨pr, _, hf⟩ := ht
    split at hf
    · cases hf
    · next hne =>
      cases hf
      simp only [bne_iff_ne]
      exact mk_ne_empty_of_ne_nil (by simpa [List.isEmpty_iff] using hne)
  · rw [List.mem_filterMap] at ht
    obtain ⟨attrs, _, hf⟩ := ht
    rw [trackOfAttrs.eq_def] at hf
    cases hms : matchAttrCapture "lang_code=\"".toList attrs with
    | none => rw [hms] at hf; simp at hf
    | some l =>
      rw [hms] at hf
      simp at hf
      obtain ⟨hne, rfl⟩ := hf
      simp only [bne_iff_ne]
      exact mk_ne_empty_of_ne_nil hne

theorem tryLitCapture_some_ne {pre s cap : List Char}
    (h : tryLitCapture pre s = some cap) : cap ≠ [] := by
  simp only [tryLitCapture] at h
  split at h
  · split at h
    · cases h
    · next hne =>
      cases h
      simpa [List.isEmpty_iff] using hne
  · cases h

theorem scanPattern1_some_ne :
    ∀ {s cap : List Char}, scanPattern1 s = some cap → cap ≠ [] := by
  intro s
  induction s with
  | nil => intro cap h; cases h
  | cons c rest ih =>
    intro cap h
    simp only [scanPattern1] at h
    cases h1 : tryLitCapture p1watch (c :: rest) with
    | some cap1 => rw [h1] at h; cases h; exact tryLitCapture_some_ne h1
    | none =>
      rw [h1] at h
      cases h2 : tryLitCapture p1short (c :: rest) with
      | some cap2 => rw [h2] at h; cases h; exact tryLitCapture_some_ne h2
      | none =>
        rw [h2] at h
        cases h3 : tryLitCapture p1embed (c :: rest) with
        | some cap3 => rw [h3] at h; cases h; exact tryLitCapture_some_ne h3
        | none => rw [h3] at h; exact ih h

theorem scanLazyV_some_ne :
    ∀ {s cap : List Char}, scanLazyV s = some cap → cap ≠ [] := by
  intro s
  induction s with
  | nil => intro cap h; cases h
  | cons c rest ih =>
    intro cap h
    simp only [scanLazyV] at h
    split at h
    · rename_i cap2 heq
      cases h
      split at heq
      · split at heq
        · cases heq
        · next hne =>
          cases heq
          simpa [List.isEmpty_iff] using hne
      · cases heq
    · split at h
      · exact ih h
      · cases h

theorem scanPattern2_some_ne :
    ∀ {s cap : List Char}, scanPattern2 s = some cap → cap ≠ [] := by
  intro s
  induction s with
  | nil => intro cap h; cases h
  | cons c rest ih =>
    intro cap h
    simp only [scanPattern2] at h
    split at h
    · rename_i cap2 heq
      cases h
      split at heq
      · exact scanLazyV_some_ne heq
      · cases heq
    · exact ih h

theorem scanPattern3_some_ne :
    ∀ {s cap : List Char}, scanPattern3 s = some cap → cap ≠ [] := by
  intro s
  induction s with
  | nil => intro cap h; cases h
  | cons c rest ih =>
    intro cap h
    simp only [scanPattern3] at h
    cases h1 : tryLitCapture p3shorts (c :: rest) with
    | some cap1 => rw [h1] at h; cases h; exact tryLitCapture_some_ne h1
    | none => rw [h1] at h; exact ih h

/-- Claim C10: the Identifier Extractor never returns the empty string:
every regex capture requires at least one character and an empty
query-parameter value is falsy, so the result is either the null model
or a non-empty identifier. -/
theorem c10_extract_never_empty (parseUrl : String → Option UrlObj)
    (url : Option String) : extractVideoId parseUrl url ≠ some "" := by
  intro h
  cases url with
  | none => simp [extractVideoId] at h
  | some u =>
    simp only [extractVideoId] at h
    split at h
    · cases h
    · cases h1 : scanPattern1 u.toList with
      | some cap =>
        simp only [h1] at h
        injection h with h4
        exact scanPattern1_some_ne h1 (congrArg String.data h4)
      | none =>
        simp only [h1] at h
        cases h2 : scanPattern2 u.toList with
        | some cap =>
          simp only [h2] at h
          injection h with h4
          exact scanPattern2_some_ne h2 (congrArg String.data h4)
        | none =>
          simp only [h2] at h
          cases h3 : scanPattern3 u.toList with
          | some cap =>
            simp only [h3] at h
            injection h with h4
            exact scanPattern3_some_ne h3 (congrArg String.data h4)
          | none =>
            simp only [h3] at h
            cases hp : parseUrl u with
            | none => simp only [hp] at h; cases h
            | some obj =>
              simp only [hp] at h
              split at h
              · cases hv : obj.vParam with
                | none => simp only [hv] at h; cases h
                | some v =>
                  simp only [hv] at h
                  split at h
                  · next hvne =>
                    injection h with h4
                    exact hvne h4
                  · cases h
              · cases h

/-- Witness for claim C10 at a concrete input. -/
theorem c10_witness :
    extractVideoId (fun _ => none) (some "https://youtu.be/abc") ≠ some "" :=
  c10_extract_never_empty (fun _ => none) (some "https://youtu.be/abc")

/-- Claim C5: the Identifier Extractor is total (the embedding returns
an `Option` for every input, the null/empty guard and the caught URL
parse covering the throwing paths), and whenever no pattern matches and
the URL fallback carries no readable v parameter the result is the
not-found value. -/
theorem c5_extractor_none_on_no_match (parseUrl : String → Option UrlObj)
    (url : Option String)
    (h1 : ∀ u, url = some u → scanPattern1 u.toList = none)
    (h2 : ∀ u, url = some u → scanPattern2 u.toList = none)
    (h3 : ∀ u, url = some u → scanPattern3 u.toList = none)
    (hv : ∀ u obj, url = some u → parseUrl u = some obj →
      obj.vParam = none ∨ obj.vParam = some "") :
    extractVideoId parseUrl url = none := by
  cases url with
  | none => rfl
  | some u =>
    simp only [extractVideoId]
    split
    · rfl
    · simp only [h1 u rfl, h2 u rfl, h3 u rfl]
      cases hp : parseUrl u with
      | none => simp
      | some obj =>
        simp only []
        split
        · rcases hv u obj rfl hp with hnone | hempty
          · simp only [hnone]
          · simp [hempty]
        · rfl

/-- Witness for claim C5 at a concrete non-matching input. -/
theorem c5_witness :
    extractVideoId (fun _ => none) (some "http://example.org/page") = none :=
  c5_extractor_none_on_no_match (fun _ => none) (some "http://example.org/page")
    (by intro u hu; cases hu; decide)
    (by intro u hu; cases hu; decide)
    (by intro u hu; cases hu; decide)
    (by intro u obj hu hobj; cases hobj)

theorem runMethodsAux_some_valid :
    ∀ (runs : List (String × Except String MethodResult)) (idx : Nat)
      (nm : String) (r : MethodResult),
      (runMethodsAux idx runs).2 = some (nm, r) → validResult r = true := by
  intro runs
  induction runs with
  | nil => intro idx nm r h; cases h
  | cons pr rest ih =>
    intro idx nm r h
    obtain ⟨nm0, run0⟩ := pr
    cases run0 with
    | error e => exact ih (idx + 1) nm r h
    | ok r0 =>
      by_cases hr : validResult r0 = true
      · simp only [runMethodsAux, hr, if_true] at h
        cases h
        exact hr
      · simp only [runMethodsAux, if_neg hr] at h
        exact ih (idx + 1) nm r h

theorem runMethodsAux_trace_le :
    ∀ (runs : List (String × Except String MethodResult)) (idx i : Nat)
      (hi : i < runs.length),
      validRun (runs.get ⟨i, hi⟩).2 = true →
      ∀ j ∈ (runMethodsAux idx runs).1, j ≤ idx + i := by
  intro runs
  induction runs with
  | nil => intro idx i hi; simp at hi
  | cons pr rest ih =>
    intro idx i hi hvalid j hj
    obtain ⟨nm0, run0⟩ := pr
    cases i with
    | zero =>
      cases run0 with
      | error e => simp [validRun] at hvalid
      | ok r =>
        have hr : validResult r = true := hvalid
        simp only [runMethodsAux, hr, if_true] at hj
        simp at hj
        omega
    | succ i2 =>
      have hi2 : i2 < rest.length := Nat.succ_lt_succ_iff.mp hi
      have hv2 : validRun (rest.get ⟨i2, hi2⟩).2 = true := hvalid
      cases run0 with
      | error e =>
        simp only [runMethodsAux] at hj
        rcases List.mem_cons.mp hj with rfl | hj2
        · omega
        · have := ih (idx + 1) i2 hi2 hv2 j hj2
          omega
      | ok r =>
        by_cases hr : validResult r = true
        · simp only [runMethodsAux, hr, if_true] at hj
          simp at hj
          omega
        · simp only [runMethodsAux, if_neg hr] at hj
          rcases List.mem_cons.mp hj with rfl | hj2
          · omega
          · have := ih (idx + 1) i2 hi2 hv2 j hj2
            omega

theorem runMethodsAux_none_of_invalid :
    ∀ (runs : List (String × Except String MethodResult)) (idx : Nat),
      (∀ pr ∈ runs, validRun pr.2 = false) →
      (runMethodsAux idx runs).2 = none := by
  intro runs
  induction runs with
  | nil => intro idx _; rfl
  | cons pr rest ih =>
    intro idx hall
    obtain ⟨nm0, run0⟩ := pr
    have h0 : validRun (nm0, run0).2 = false := hall _ (List.mem_cons_self _ _)
    have hrest : ∀ pr ∈ rest, validRun pr.2 = false :=
      fun pr hpr => hall pr (List.mem_cons_of_mem _ hpr)
    cases run0 with
    | error e => simpa only [runMethodsAux] using ih (idx + 1) hrest
    | ok r =>
      have hr : validResult r = false := h0
      simp only [runMethodsAux, hr]
      simpa using ih (idx + 1) hrest

/-- Claim C2: for every URL and every behaviour of the network
collaborator, a successful outcome of `getVideoTranscript` carries a
transcript whose trimmed length is at least twenty characters, because
the orchestrator re-validates every adapter result before accepting
it. -/
theorem c2_success_min_length (parseUrl : String → Option UrlObj)
    (title : String) (tt wp it : Except String MethodResult)
    (url : Option String)
    (h : (getVideoTranscript parseUrl title tt wp it url).success = true) :
    (getVideoTranscript parseUrl title tt wp it url).transcript.isSome = true ∧
    20 ≤ (jsTrim
      ((getVideoTranscript parseUrl title tt wp it url).transcript.getD "")).length := by
  cases hx : extractVideoId parseUrl url with
  | none => simp only [getVideoTranscript, hx] at h; cases h
  | some vid =>
    simp only [getVideoTranscript, hx] at h ⊢
    cases haux : (runMethodsAux 0 (methodsList tt wp it)).2 with
    | none => simp only [haux] at h; cases h
    | some p =>
      obtain ⟨nm, r⟩ := p
      simp only [haux] at h ⊢
      have hv : validResult r = true := runMethodsAux_some_valid _ 0 nm r haux
      simp only [validResult, Bool.and_eq_true] at hv
      obtain ⟨-, hv2⟩ := hv
      cases htr : r.transcript with
      | none => rw [htr] at hv2; cases hv2
      | some t =>
        rw [htr] at hv2
        simp only [Bool.and_eq_true, decide_eq_true_eq] at hv2
        simp [htr, hv2.2]

/-- Witness for claim C2: a first adapter resolving with an acceptable
transcript yields a successful outcome meeting the bound. -/
theorem c2_witness :
    (getVideoTranscript (fun _ => none) "T"
      (.ok ⟨true, some "aaaaaaaaaaaaaaaaaaaaaaaaa", some "en"⟩)
      (.error "x") (.error "y")
      (some "https://youtu.be/abc123")).transcript.isSome = true ∧
    20 ≤ (jsTrim ((getVideoTranscript (fun _ => none) "T"
      (.ok ⟨true, some "aaaaaaaaaaaaaaaaaaaaaaaaa", some "en"⟩)
      (.error "x") (.error "y")
      (some "https://youtu.be/abc123")).transcript.getD "")).length :=
  c2_success_min_length (fun _ => none) "T"
    (.ok ⟨true, some "aaaaaaaaaaaaaaaaaaaaaaaaa", some "en"⟩)
    (.error "x") (.error "y") (some "https://youtu.be/abc123") (by decide)

/-- Claim C3: the orchestrator short-circuits — whenever the adapter at
position i of the fixed methods array produces a validated result, every
adapter the loop of `getVideoTranscript` actually invokes sits at a
position no later than i, so no later channel is ever invoked. -/
theorem c3_short_circuit (tt wp it : Except String MethodResult) (i : Nat)
    (hi : i < (methodsList tt wp it).length)
    (hvalid : validRun ((methodsList tt wp it).get ⟨i, hi⟩).2 = true) :
    ((runMethodsAux 0 (methodsList tt wp it)).1.all
      (fun j => decide (j ≤ i))) = true := by
  rw [List.all_eq_true]
  intro j hj
  rw [decide_eq_true_eq]
  have := runMethodsAux_trace_le (methodsList tt wp it) 0 i hi hvalid j hj
  omega

/-- Witness for claim C3: with a valid first adapter only index zero is
invoked. -/
theorem c3_witness :
    ((runMethodsAux 0 (methodsList
      (.ok ⟨true, some "aaaaaaaaaaaaaaaaaaaaaaaaa", some "en"⟩)
      (.error "x") (.error "y"))).1.all (fun j => decide (j ≤ 0))) = true :=
  c3_short_circuit
    (.ok ⟨true, some "aaaaaaaaaaaaaaaaaaaaaaaaa", some "en"⟩)
    (.error "x") (.error "y") 0 (by decide) (by decide)

/-- Claim C4: when a video identifier is extracted and every channel
adapter throws or fails validation, `getVideoTranscript` returns a
failure outcome with a non-empty error message and no transcript
field. -/
theorem c4_exhaustion (parseUrl : String → Option UrlObj) (title : String)
    (tt wp it : Except String MethodResult) (url : Option String) (vid : String)
    (hid : extractVideoId parseUrl url = some vid)
    (h1 : validRun tt = false) (h2 : validRun wp = false)
    (h3 : validRun it = false) :
    (getVideoTranscript parseUrl title tt wp it url).success = false ∧
    (getVideoTranscript parseUrl title tt wp it url).transcript = none ∧
    (getVideoTranscript parseUrl title tt wp it url).error ≠ none ∧
    (getVideoTranscript parseUrl title tt wp it url).error.getD "" ≠ "" := by
  have hall : ∀ pr ∈ methodsList tt wp it, validRun pr.2 = false := by
    intro pr hpr
    simp only [methodsList, List.mem_cons, List.not_mem_nil, or_false] at hpr
    rcases hpr with rfl | rfl | rfl
    · exact h1
    · exact h2
    · exact h3
  have hnone := runMethodsAux_none_of_invalid (methodsList tt wp it) 0 hall
  simp only [getVideoTranscript, hid, hnone]
  refine ⟨trivial, trivial, by simp, by decide⟩

/-- Witness for claim C4: a throwing adapter, an unsuccessful result and
a too-short transcript exhaust the orchestrator. -/
theorem c4_witness :
    (getVideoTranscript (fun _ => none) "T" (.error "a")
      (.ok ⟨false, none, none⟩) (.ok ⟨true, some "short", none⟩)
      (some "https://youtu.be/abc")).success = false ∧
    (getVideoTranscript (fun _ => none) "T" (.error "a")
      (.ok ⟨false, none, none⟩) (.ok ⟨true, some "short", none⟩)
      (some "https://youtu.be/abc")).transcript = none ∧
    (getVideoTranscript (fun _ => none) "T" (.error "a")
      (.ok ⟨false, none, none⟩) (.ok ⟨true, some "short", none⟩)
      (some "https://youtu.be/abc")).error ≠ none ∧
    (getVideoTranscript (fun _ => none) "T" (.error "a")
      (.ok ⟨false, none, none⟩) (.ok ⟨true, some "short", none⟩)
      (some "https://youtu.be/abc")).error.getD "" ≠ "" :=
  c4_exhaustion (fun _ => none) "T" (.error "a")
    (.ok ⟨false, none, none⟩) (.ok ⟨true, some "short", none⟩)
    (some "https://youtu.be/abc") "abc" (by decide) (by decide) (by decide)
    (by decide)

theorem replaceAllAux_not_contains (pat repl : List Char) :
    ∀ (fuel : Nat) (s : List Char), containsSub pat s = false →
      replaceAllAux pat repl fuel s = s := by
  intro fuel
  induction fuel with
  | zero => intro s _; cases s <;> rfl
  | succ fuel ih =>
    intro s h
    cases s with
    | nil => rfl
    | cons c rest =>
      simp only [containsSub, Bool.or_eq_false_iff] at h
      obtain ⟨hp, hc⟩ := h
      simp [replaceAllAux, hp, ih rest hc]

theorem foldl_replaceAll_no_occ :
    ∀ (l : List (String × String)) (s : List Char),
      (∀ pr ∈ l, containsSub pr.1.toList s = false) →
      l.foldl (fun acc pr => replaceAllL pr.1.toList pr.2.toList acc) s = s := by
  intro l
  induction l with
  | nil => intro s _; rfl
  | cons pr l ih =>
    intro s h
    have h0 := h pr (List.mem_cons_self _ _)
    rw [List.foldl_cons,
      show replaceAllL pr.1.toList pr.2.toList s = s from
        replaceAllAux_not_contains _ _ _ _ h0]
    exact ih s (fun q hq => h q (List.mem_cons_of_mem _ hq))

theorem decodeNumAux_no_ref :
    ∀ (fuel : Nat) (s : List Char), hasNumericRef s = false →
      decodeNumAux fuel s = s := by
  intro fuel s
  induction fuel, s using decodeNumAux.induct with
  | case1 t => intro _; cases t <;> rfl
  | case2 s hs =>
    intro _
    cases s with
    | nil => exact absurd rfl hs
    | cons c rest => rfl
  | case3 fuel rest ds hguard ih =>
    intro h
    simp only [hasNumericRef, numRefAt, Bool.or_eq_false_iff] at h
    have hg2 : (!(List.takeWhile Char.isDigit rest).isEmpty &&
        ((List.drop (List.takeWhile Char.isDigit rest).length rest).head? ==
          some ';')) = true := hguard
    rw [h.1] at hg2
    exact Bool.noConfusion hg2
  | case4 fuel rest ds hguard ih =>
    intro h
    simp only [hasNumericRef, Bool.or_eq_false_iff] at h
    have h2 : hasNumericRef ('#' :: rest) = false := by
      simp only [hasNumericRef, Bool.or_eq_false_iff]
      exact ⟨h.2.1, h.2.2⟩
    have hg : ¬(!(List.takeWhile Char.isDigit rest).isEmpty &&
        ((List.drop (List.takeWhile Char.isDigit rest).length rest).head? ==
          some ';')) = true := hguard
    simp only [decodeNumAux]
    rw [if_neg hg, ih h2]
  | case5 fuel c rest hne ih =>
    intro h
    simp only [hasNumericRef, Bool.or_eq_false_iff] at h
    rw [decodeNumAux.eq_def]
    split
    · rename_i heq
      simp at heq
    · rfl
    · rename_i fuel2 rest2 hfe heq
      injection heq with hc hrest
      exact (hne rest2 hc hrest).elim
    · rename_i fuel2 c2 rest2 hne2 hfe heq
      injection heq with hc hrest
      subst hc
      subst hrest
      injection hfe with hf
      subst hf
      rw [ih h.2]

theorem decodeHtmlEntitiesL_no_entity (s : List Char)
    (h : hasAnyEntity s = false) : decodeHtmlEntitiesL s = s := by
  simp only [hasAnyEntity, Bool.or_eq_false_iff] at h
  obtain ⟨hnamed, hnum⟩ := h
  have hall : ∀ pr ∈ namedEntities, containsSub pr.1.toList s = false := by
    intro pr hpr
    simpa using (List.any_eq_false.mp hnamed) pr hpr
  simp only [decodeHtmlEntitiesL]
  rw [foldl_replaceAll_no_occ namedEntities s hall]
  exact decodeNumAux_no_ref s.length s hnum

/-- Claim C6: the Entity Decoder leaves a string with no markup
entities unchanged, decodes the given mixed example to the expected
text, and is total on malformed numeric references, leaving them as
literal text. -/
theorem c6_entity_decoder :
    (∀ s : String, hasAnyEntity s.toList = false → decodeHtmlEntities s = s) ∧
    decodeHtmlEntities "a &amp; b &lt;c&gt; &#65;" = "a & b <c> A" ∧
    decodeHtmlEntities "x &#xZZ; &#; &#12 y" = "x &#xZZ; &#; &#12 y" := by
  refine ⟨?_, by decide, by decide⟩
  intro s h
  simp only [decodeHtmlEntities]
  split
  · next h0 => rw [h0]
  · rw [decodeHtmlEntitiesL_no_entity s.toList h]
    cases s
    rfl

/-- Witness for claim C6: an entity-free string decodes to itself. -/
theorem c6_witness :
    decodeHtmlEntities "plain text 123" = "plain text 123" :=
  c6_entity_decoder.1 "plain text 123" (by decide)

theorem splitFirst_eq_append (pat : List Char) :
    ∀ {s pre post : List Char}, splitFirst pat s = some (pre, post) →
      s = pre ++ pat ++ post := by
  intro s
  induction s with
  | nil =>
    intro pre post h
    simp only [splitFirst] at h
    split at h
    · next hemp =>
      cases h
      simp [List.isEmpty_iff.mp hemp]
    · cases h
  | cons c rest ih =>
    intro pre post h
    simp only [splitFirst] at h
    split at h
    · next hpre =>
      cases h
      obtain ⟨t, ht⟩ := List.isPrefixOf_iff_prefix.mp hpre
      rw [List.nil_append, ← ht, List.drop_left]
    · cases hsp : splitFirst pat rest with
      | some pr =>
        obtain ⟨p, q⟩ := pr
        simp only [hsp] at h
        cases h
        rw [ih hsp]
        simp
      | none => simp only [hsp] at h; cases h

theorem splitFirst_on_elem (pat : List Char) (hhead : pat.head? = some '<') :
    ∀ (content rest : List Char), (∀ ch ∈ content, ch ≠ '<') →
      splitFirst pat (content ++ pat ++ rest) = some (content, rest) := by
  intro content
  induction content with
  | nil =>
    intro rest _
    cases pat with
    | nil => simp at hhead
    | cons p0 pt =>
      show splitFirst (p0 :: pt) (p0 :: (pt ++ rest)) = some ([], rest)
      simp only [splitFirst]
      rw [if_pos (List.isPrefixOf_iff_prefix.mpr ⟨rest, by simp⟩)]
      rw [show p0 :: (pt ++ rest) = (p0 :: pt) ++ rest from rfl, List.drop_left]
  | cons c ct ih =>
    intro rest hni
    have hc : c ≠ '<' := hni c (List.mem_cons_self _ _)
    show splitFirst pat (c :: (ct ++ pat ++ rest)) = some (c :: ct, rest)
    simp only [splitFirst]
    rw [if_neg ?hnp]
    case hnp =>
      intro hp
      cases pat with
      | nil => simp at hhead
      | cons p0 pt =>
        injection hhead with hp0
        subst hp0
        simp only [List.isPrefixOf, Bool.and_eq_true, beq_iff_eq] at hp
        exact hc hp.1.symm
    simp only [ih rest (fun ch hch => hni ch (List.mem_cons_of_mem _ hch))]

theorem tryTextMatch_shorter :
    ∀ {s content after : List Char}, tryTextMatch s = some (content, after) →
      after.length < s.length := by
  intro s content after h
  simp only [tryTextMatch] at h
  split at h
  · next hpre =>
    split at h
    · next body heq =>
      cases hsp : splitFirst "</text>".toList body with
      | some pr =>
        obtain ⟨c2, a2⟩ := pr
        simp only [hsp] at h
        split at h
        · cases h
          have hb := splitFirst_eq_append _ hsp
          have hc7 : ("</text>".toList).length = 7 := rfl
          have h5 : ("<text".toList).length = 5 := rfl
          have hple := (List.isPrefixOf_iff_prefix.mp hpre).length_le
          have hlendrop :
              ((s.drop 5).drop
                ((s.drop 5).takeWhile (fun ch => !(ch == '>'))).length).length =
              body.length + 1 := by rw [heq]; rfl
          have htk :
              ((s.drop 5).takeWhile (fun ch => !(ch == '>'))).length ≤
                (s.drop 5).length := (List.takeWhile_sublist _).length_le
          have hbl : body.length = content.length + 7 + after.length := by
            rw [hb]; simp; omega
          simp only [List.length_drop] at hlendrop htk
          rw [h5] at hple
          omega
        · cases h
      | none => simp only [hsp] at h; cases h
    · cases h
  · cases h

theorem scanTextTags_fuel_eq :
    ∀ (fuel fuel2 : Nat) (s : List Char), s.length ≤ fuel → s.length ≤ fuel2 →
      scanTextTags fuel s = scanTextTags fuel2 s := by
  intro fuel
  induction fuel with
  | zero =>
    intro fuel2 s h1 _
    have hs : s = [] := List.length_eq_zero.mp (Nat.le_zero.mp h1)
    subst hs
    cases fuel2 <;> rfl
  | succ fuel ih =>
    intro fuel2 s h1 h2
    cases s with
    | nil => cases fuel2 <;> rfl
    | cons c rest =>
      cases fuel2 with
      | zero => simp at h2
      | succ f2 =>
        simp only [scanTextTags]
        cases hm : tryTextMatch (c :: rest) with
        | some pr =>
          obtain ⟨content, after⟩ := pr
          simp only [hm]
          have hlen := tryTextMatch_shorter hm
          simp only [List.length_cons] at hlen h1 h2
          exact congrArg (content :: ·) (ih f2 after (by omega) (by omega))
        | none =>
          simp only [hm]
          simp only [List.length_cons] at h1 h2
          exact ih f2 rest (by omega) (by omega)

theorem tryTextMatch_elem (c rest : List Char) (hni : ∀ ch ∈ c, ch ≠ '<')
    (hdot : c.all dotChar = true) :
    tryTextMatch ("<text>".toList ++ c ++ "</text>".toList ++ rest) =
      some (c, rest) := by
  have hshape : "<text>".toList ++ c ++ "</text>".toList ++ rest =
      "<text".toList ++ ('>' :: (c ++ "</text>".toList ++ rest)) := by
    rw [show "<text>".toList = "<text".toList ++ ['>'] from rfl]
    simp [List.append_assoc]
  rw [hshape]
  simp only [tryTextMatch]
  rw [if_pos (List.isPrefixOf_iff_prefix.mpr (List.prefix_append _ _))]
  rw [show (5 : Nat) = ("<text".toList).length from rfl, List.drop_left]
  simp only [List.takeWhile]
  rw [show ((('>' : Char) == '>') : Bool) = true from rfl]
  simp only [Bool.not_true, List.length_nil, List.drop_zero, List.drop_succ_cons]
  rw [splitFirst_on_elem "</text>".toList (by decide) c rest hni]
  simp [hdot]

theorem scanTextTags_elem (c rest : List Char) (hni : ∀ ch ∈ c, ch ≠ '<')
    (hdot : c.all dotChar = true) (fuel : Nat)
    (hfuel : ("<text>".toList ++ c ++ "</text>".toList ++ rest).length ≤ fuel) :
    scanTextTags fuel ("<text>".toList ++ c ++ "</text>".toList ++ rest) =
      c :: scanTextTags rest.length rest := by
  simp only [List.length_append] at hfuel
  cases fuel with
  | zero => exfalso; simp at hfuel
  | succ f =>
    have hstep : scanTextTags (f + 1)
        ("<text>".toList ++ c ++ "</text>".toList ++ rest) =
        match tryTextMatch ("<text>".toList ++ c ++ "</text>".toList ++ rest) with
        | some (content, after) => content :: scanTextTags f after
        | none => scanTextTags f ("text>".toList ++ c ++ "</text>".toList ++ rest) :=
      rfl
    rw [hstep, tryTextMatch_elem c rest hni hdot]
    exact congrArg (c :: ·)
      (scanTextTags_fuel_eq f rest.length rest (by simp at hfuel; omega)
        (le_refl _))

theorem textElements_toList_cons (c : String) (cs : List String) :
    (textElements (c :: cs)).toList =
      "<text>".toList ++ c.toList ++ "</text>".toList ++
        (textElements cs).toList := by
  simp [textElements, String.toList, String.data_append]

theorem scanTextTags_elements :
    ∀ cs : List String,
      (∀ c ∈ cs, (∀ ch ∈ c.toList, ch ≠ '<') ∧ c.toList.all dotChar = true) →
      scanTextTags (textElements cs).toList.length (textElements cs).toList =
        cs.map String.toList := by
  intro cs
  induction cs with
  | nil => intro _; rfl
  | cons c cs ih =>
    intro h
    have hc := h c (List.mem_cons_self _ _)
    have hcs := fun q hq => h q (List.mem_cons_of_mem _ hq)
    rw [textElements_toList_cons]
    rw [scanTextTags_elem c.toList (textElements cs).toList hc.1 hc.2 _
      (le_refl _)]
    rw [ih hcs]
    rfl

theorem decodeHtmlEntities_mk (s : String) :
    decodeHtmlEntities s = ⟨decodeHtmlEntitiesL s.toList⟩ := by
  simp only [decodeHtmlEntities]
  split
  · next h0 => subst h0; rfl
  · rfl

theorem mk_bne_empty (l : List Char) : ((⟨l⟩ : String) != "") = !l.isEmpty := by
  cases l <;> rfl

theorem parsedTexts_eq :
    ∀ cs : List String,
      List.map (fun t => (⟨t⟩ : String))
        (List.filter (fun t => !(jsTrimL t).isEmpty)
          (List.map decodeHtmlEntitiesL (List.map String.toList cs))) =
      List.filter (fun t => jsTrim t != "") (List.map decodeHtmlEntities cs) := by
  intro cs
  induction cs with
  | nil => rfl
  | cons c cs ih =>
    simp only [List.map_cons, List.filter_cons]
    rw [decodeHtmlEntities_mk c]
    rw [show jsTrim (⟨decodeHtmlEntitiesL c.toList⟩ : String) =
      (⟨jsTrimL (decodeHtmlEntitiesL c.toList)⟩ : String) from rfl]
    rw [mk_bne_empty]
    split
    · rw [List.map_cons, ih]
    · exact ih

/-- Claim C8: the markup-tag body parser extracts the inner content of
each element, decodes entities, discards fragments empty after trimming, and
joins the survivors with single spaces in document order — stated as a
refinement against the spec-worded `markupSpecParse` on any document of
well-formed text elements — and the given three-element input parses to
the expected string. -/
theorem c8_markup_tag_body :
    (∀ cs : List String,
      (∀ c ∈ cs, (∀ ch ∈ c.toList, ch ≠ '<') ∧ c.toList.all dotChar = true) →
      parseTranscriptXml (textElements cs) = markupSpecParse cs) ∧
    parseTranscriptXml
      "<text>Hi &amp; bye</text><text></text><text>there</text>" =
      "Hi & bye there" := by
  refine ⟨?_, by decide⟩
  intro cs h
  simp only [parseTranscriptXml, markupSpecParse]
  rw [scanTextTags_elements cs h, parsedTexts_eq cs]

/-- Witness for claim C8 at a concrete element list. -/
theorem c8_witness :
    parseTranscriptXml (textElements ["ab", "", "cd"]) =
      markupSpecParse ["ab", "", "cd"] :=
  c8_markup_tag_body.1 ["ab", "", "cd"] (by decide)

end YT
